import Mathlib

/-!
Verification development for the `uday.sh` terminal-shell core: a shallow
embedding of the command-interpretation pipeline of
`src/components/Terminal/Shell.tsx` and `src/lib/parser.ts` (tokenizer,
path resolver, node lookup, fuzzy ranking engine, session state machine,
command dispatcher), together with theorems settling the behavioural
claims about it.

Modelling conventions:
- JS strings are Lean `String`s; `split`, `join`, `trim`, `toLowerCase`,
  `startsWith`, `includes` on single-character separators are embedded as
  character-list recursions with the same semantics.
- The JS regex `\s` is modelled by ASCII whitespace (`Char.isWhitespace`);
  `localeCompare` is modelled by code-point lexicographic comparison.
- `Record<string, FSNode>` children maps are association lists looked up
  by key equality.
- React display nodes are abstracted: a log entry keeps its tag
  (`command` / `output` / `error` / `banner`) and a textual content label
  (the primary message for errors); decorative fix-suggestion chips and
  pretty-printed bodies do not influence any modelled control flow.
-/

namespace UdaySh

/-- The single-quote character (written via its code point). -/
def squote : Char := Char.ofNat 39

/-- Embedding of the JS regex `\s` character test used by the tokenizer. -/
def isSpaceChar (c : Char) : Bool := c.isWhitespace

/-- Embedding of JS `String.prototype.toLowerCase` (ASCII letters). -/
def strLower (s : String) : String := String.mk (s.data.map Char.toLower)

/-- Embedding of JS `String.prototype.trim`. -/
def strTrim (s : String) : String :=
  String.mk (((s.data.dropWhile isSpaceChar).reverse.dropWhile isSpaceChar).reverse)

/-- `leads q s` is true when the character list `s` starts with `q`
(embedding of JS `s.startsWith(q)`). -/
def leads : List Char → List Char → Bool
  | [], _ => true
  | _ :: _, [] => false
  | q :: qs, c :: cs => q == c && leads qs cs

/-- `hasSub s q` is true when `q` occurs contiguously in `s`
(embedding of JS `s.includes(q)`). -/
def hasSub : List Char → List Char → Bool
  | [], q => leads q []
  | c :: cs, q => leads q (c :: cs) || hasSub cs q

/-- Embedding of JS `s.split('/')` on character lists. -/
def charSplit : List Char → List (List Char)
  | [] => [[]]
  | c :: cs =>
    if c = '/' then [] :: charSplit cs
    else
      match charSplit cs with
      | [] => [[c]]
      | t :: ts => (c :: t) :: ts

/-- Embedding of `s.split('/').filter(Boolean)` from `Shell.tsx`. -/
def splitPath (s : String) : List String :=
  ((charSplit s.data).map (fun cs => String.mk cs)).filter (fun t => t != "")

/-- Embedding of JS `Array.prototype.join('/')`. -/
def joinSegs : List String → String
  | [] => ""
  | [x] => x
  | x :: y :: xs => x ++ "/" ++ joinSegs (y :: xs)

/-- Embedding of JS `target.startsWith('/')`. -/
def startsWithSlash (s : String) : Bool :=
  match s.data with
  | c :: _ => c = '/'
  | [] => false

/-! ### Tokenizer (`src/lib/parser.ts`) -/

/-- Result record of `parseCommand` in `parser.ts`. -/
structure ParsedCommand where
  raw : String
  commandName : String
  args : List String
  error : Option String
deriving DecidableEq, Repr

/-- The fixed `ALIASES` table of `parser.ts` (`ALIASES[rawCmd] || rawCmd`). -/
def aliasLookup (s : String) : String :=
  if s = "?" then "help"
  else if s = "dir" then "ls"
  else if s = "goto" then "cd"
  else if s = "read" then "cat"
  else if s = "tldr" then "summary"
  else s

/-- The character loop of `parseCommand`: state is the accumulated tokens,
the current token, the open-quote character (if any) and the escaping
flag; returns the final tokens, current token and open-quote state. -/
def parseLoop : List Char → List String → List Char → Option Char → Bool →
    List String × List Char × Option Char
  | [], tokens, cur, quote, _esc => (tokens, cur, quote)
  | c :: cs, tokens, cur, quote, esc =>
    if esc then parseLoop cs tokens (cur ++ [c]) quote false
    else if c = '\\' then parseLoop cs tokens cur quote true
    else
      match quote with
      | some qc =>
        if c = qc then parseLoop cs tokens cur none false
        else parseLoop cs tokens (cur ++ [c]) (some qc) false
      | none =>
        if c = '"' ∨ c = squote then parseLoop cs tokens cur (some c) false
        else if isSpaceChar c then
          if cur ≠ [] then parseLoop cs (tokens ++ [String.mk cur]) [] none false
          else parseLoop cs tokens [] none false
        else parseLoop cs tokens (cur ++ [c]) none false

/-- The quote/escape automaton of the tokenizer in isolation: the quote
character (if any) that is still open after scanning the input. -/
def scanQuote : List Char → Option Char → Bool → Option Char
  | [], quote, _esc => quote
  | c :: cs, quote, esc =>
    if esc then scanQuote cs quote false
    else if c = '\\' then scanQuote cs quote true
    else
      match quote with
      | some qc =>
        if c = qc then scanQuote cs none false
        else scanQuote cs (some qc) false
      | none =>
        if c = '"' ∨ c = squote then scanQuote cs (some c) false
        else scanQuote cs quote false

/-- Embedding of `parseCommand` from `parser.ts`. `none` models the JS
`null` return ("no command"). -/
def parseCommand (input : String) : Option ParsedCommand :=
  if strTrim input = "" then none
  else
    match parseLoop input.data [] [] none false with
    | (tokens0, cur, quote) =>
      match quote with
      | some _ =>
        some { raw := input, commandName := "", args := [], error := some "Unclosed quote found." }
      | none =>
        let tokens := if cur ≠ [] then tokens0 ++ [String.mk cur] else tokens0
        match tokens with
        | [] => none
        | t :: rest =>
          some { raw := input, commandName := aliasLookup (strLower t), args := rest, error := none }

/-- The error field of a parse result (`none` both for "no command" and
for a successful parse). -/
def errOf : Option ParsedCommand → Option String
  | some r => r.error
  | none => none

/-! ### Filesystem nodes and path resolution (`Shell.tsx`) -/

/-- A node of the prebuilt content tree (`fs_types.ts`). The control
logic modelled here consults only the variant tag and the children map
keys, so file payloads and display metadata are not carried. -/
inductive FSNode where
  | file : FSNode
  | dir : List (String × FSNode) → FSNode

/-- Lookup of `children[p]` in the JS children record. -/
def childLookup (children : List (String × FSNode)) (name : String) : Option FSNode :=
  match children with
  | [] => none
  | (n, node) :: rest => if n = name then some node else childLookup rest name

/-- One step of the segment fold of `resolvePath`: `"."` is skipped,
`".."` pops (a no-op on an empty accumulator, like JS `Array.pop`), any
other segment is pushed. -/
def segStep (stack : List String) (p : String) : List String :=
  if p = "." then stack
  else if p = ".." then stack.dropLast
  else stack ++ [p]

/-- The left fold of `resolvePath` over the split segments. -/
def foldSegments (parts : List String) : List String := parts.foldl segStep []

/-- The tree walk at the end of `resolvePath`: each pushed segment must
name a child of a directory (`cursor.type !== 'dir' || !cursor.children[p]`). -/
def walkPushed : FSNode → List String → Bool
  | _, [] => true
  | node, p :: rest =>
    match node with
    | .dir children =>
      match childLookup children p with
      | some child => walkPushed child rest
      | none => false
    | .file => false

/-- Embedding of `resolvePath` from `Shell.tsx`. -/
def resolvePath (root : FSNode) (current target : String) : Option String :=
  if target = "/" ∨ target = "~" then some "/"
  else
    let parts :=
      if startsWithSlash target then splitPath target
      else splitPath current ++ splitPath target
    let stack := foldSegments parts
    if walkPushed root stack then some ("/" ++ joinSegs stack) else none

/-- The cursor walk of `getNodeAtPath` over already-split segments. -/
def nodeStack : FSNode → List String → Option FSNode
  | node, [] => some node
  | node, p :: rest =>
    match node with
    | .dir children =>
      match childLookup children p with
      | some child => nodeStack child rest
      | none => none
    | .file => none

/-- Embedding of `getNodeAtPath` from `Shell.tsx`. -/
def getNodeAtPath (root : FSNode) (path : String) : Option FSNode :=
  if path = "/" ∨ path = "" then some root
  else nodeStack root (splitPath path)

/-! ### Fuzzy ranking engine (`Shell.tsx`) -/

/-- The length-adaptive edit-distance threshold (`getMaxEditDistance`). -/
def getMaxEditDistance (queryLength : Nat) : Nat :=
  if queryLength ≤ 4 then 2
  else if queryLength ≤ 8 then 3
  else 4

/-- Inner loop of the two-row Levenshtein DP: given the current `a`
character, the remaining `b` characters, the diagonal value
`prevRow[j-1]`, the remaining tail `prevRow[j..]` and the value
`nextRow[j-1]` to the left, produce `nextRow[1..]`. -/
def levNext : Char → List Char → Nat → List Nat → Nat → List Nat
  | _, [], _, _, _ => []
  | _, _ :: _, _, [], _ => []
  | c, b :: bs, diag, pj :: ptail, left =>
    let cost := if c == b then 0 else 1
    let v := min (pj + 1) (min (left + 1) (diag + cost))
    v :: levNext c bs pj ptail v

/-- Outer loop of the DP over the characters of `a`; `i` is the current
row index, `prev` the previous row. -/
def levLoop (bs : List Char) : List Char → Nat → List Nat → List Nat
  | [], _, prev => prev
  | c :: cs, i, prev =>
    match prev with
    | [] => []
    | p0 :: ptail => levLoop bs cs (i + 1) (i :: levNext c bs p0 ptail i)

/-- Embedding of `levenshteinDistance` from `Shell.tsx` (classic unit-cost
Levenshtein, linear-space two-row implementation). -/
def levenshteinDistance (a b : String) : Nat :=
  if a = b then 0
  else if a.data.length = 0 then b.data.length
  else if b.data.length = 0 then a.data.length
  else (levLoop b.data a.data 1 (List.range (b.data.length + 1))).getLastD 0

/-- Code-point lexicographic strict order on character lists (the model
of JS `localeCompare` used for ranking tie-breaks). -/
def lexLt : List Char → List Char → Bool
  | [], [] => false
  | [], _ :: _ => true
  | _ :: _, [] => false
  | a :: as, b :: bs =>
    if a < b then true
    else if b < a then false
    else lexLt as bs

/-- One row of the candidate table built by `rankCandidates` (the object
literal inside its `map`). -/
structure RankRow where
  candidate : String
  startsWith : Bool
  includes : Bool
  distance : Nat
  score : Nat
deriving DecidableEq, Repr

/-- The `map` body of `rankCandidates`, applied to the already-normalized
query and one raw candidate. -/
def mkRow (normalizedQuery candidate : String) : RankRow :=
  let normalizedCandidate := strLower candidate
  let sw := leads normalizedQuery.data normalizedCandidate.data
  let inc := hasSub normalizedCandidate.data normalizedQuery.data
  let distance := levenshteinDistance normalizedQuery normalizedCandidate
  let group := if sw then 0 else if inc then 1 else 2
  { candidate := candidate, startsWith := sw, includes := inc, distance := distance,
    score := group * 100 + distance }

/-- The group (0 = prefix match, 1 = substring match, 2 = other) assigned
by `rankCandidates` to a candidate. -/
def groupOf (normalizedQuery candidate : String) : Nat :=
  if (mkRow normalizedQuery candidate).startsWith then 0
  else if (mkRow normalizedQuery candidate).includes then 1
  else 2

/-- The ascending comparator of the `sort` in `rankCandidates`:
`a.score - b.score || a.candidate.localeCompare(b.candidate)`. -/
def rowLe (a b : RankRow) : Bool :=
  decide (a.score < b.score) ||
    (decide (a.score = b.score) && !lexLt b.candidate.data a.candidate.data)

/-- Stable insertion of a row into a list sorted by `rowLe` (the new row
goes after comparator-equal rows, as in the ECMAScript stable sort). -/
def insertRow (x : RankRow) : List RankRow → List RankRow
  | [] => [x]
  | y :: ys => if rowLe y x then y :: insertRow x ys else x :: y :: ys

/-- Model of the ECMAScript stable `Array.prototype.sort` under the
comparator `rowLe` (comparator-equal rows are identical records here, so
any stable sort has the same observable result). -/
def sortRows : List RankRow → List RankRow
  | [] => []
  | x :: xs => insertRow x (sortRows xs)

/-- Embedding of `rankCandidates` from `Shell.tsx`. -/
def rankCandidates (query : String) (candidates : List String) (limit : Nat) : List String :=
  let normalizedQuery := strLower (strTrim query)
  if normalizedQuery.data.length = 0 then candidates.take limit
  else
    let maxDistance := getMaxEditDistance normalizedQuery.data.length
    ((sortRows ((candidates.map (mkRow normalizedQuery)).filter
        (fun row => row.startsWith || row.includes || decide (row.distance ≤ maxDistance)))).take
        limit).map RankRow.candidate

/-- The fixed command vocabulary `AUTOCOMPLETE_COMMANDS` of `Shell.tsx`. -/
def commandNames : List String :=
  ["help", "cd", "ls", "open", "cat", "search", "tree", "home", "back", "clear", "summary", "pwd"]

example : levenshteinDistance "hlep" "help" = 2 := by decide
example : levenshteinDistance "lls" "ls" = 1 := by decide
example : levenshteinDistance "" "abc" = 3 := by decide
example : getMaxEditDistance 4 = 2 := by decide
example : rankCandidates "hlep" commandNames 4 = ["help"] := by decide
example : (rankCandidates "lls" commandNames 4).head? = some "ls" := by decide

/-- A small concrete tree: the root has one directory child `a`, which
has one file child `f`. -/
def demoRoot : FSNode := .dir [("a", .dir [("f", .file)])]

/-! ### Session state machine (`Shell.tsx`) -/

/-- The tag of a display-log entry (`HistoryItem.type` in `Output.tsx`). -/
inductive EntryType where
  | command
  | output
  | error
  | banner
deriving DecidableEq, Repr

/-- A display-log entry. The React node body is abstracted to a textual
content label; `id`/`path`/`timestamp` are presentational only. -/
structure HistoryItem where
  type : EntryType
  content : String
deriving DecidableEq, Repr

/-- The `defaultBanner` entry installed at session start. -/
def defaultBanner : HistoryItem := { type := EntryType.banner, content := "init-banner" }

/-- The `ShellState` record of `Shell.tsx`. -/
structure ShellState where
  history : List HistoryItem
  commandHistory : List String
  cwds : List String
  currentCwd : String
deriving DecidableEq, Repr

/-- The reducer `Action` union of `Shell.tsx`. -/
inductive Action where
  | addHistory (item : HistoryItem)
  | clearHistory
  | addCommand (cmd : String)
  | setCwd (path : String)
  | goBack
  | replaceState (newState : ShellState)

/-- JS `o || dflt` on an optional string prop (empty string is falsy). -/
def jsOrStr (o : Option String) (dflt : String) : String :=
  match o with
  | some s => if s = "" then dflt else s
  | none => dflt

/-- Embedding of `getInitialState` (an `initialHistory` array is truthy in
JS even when empty, so only an absent prop falls back to the banner). -/
def getInitialState (initialCwd : Option String) (initialHistory : Option (List HistoryItem)) :
    ShellState :=
  { history := match initialHistory with | some h => h | none => [defaultBanner]
    commandHistory := []
    cwds := [jsOrStr initialCwd "/"]
    currentCwd := jsOrStr initialCwd "/" }

/-- Embedding of `shellReducer`. In `GO_BACK` the new current directory is
`newCwds[newCwds.length - 1]`, which the guard makes well-defined; the
default of `getLastD` is unreachable. -/
def shellReducer (state : ShellState) (action : Action) : ShellState :=
  match action with
  | .addHistory item => { state with history := state.history ++ [item] }
  | .clearHistory =>
    { state with history :=
        let banners := state.history.filter (fun it => it.type == EntryType.banner)
        if banners.length > 0 then banners else [defaultBanner] }
  | .addCommand cmd => { state with commandHistory := state.commandHistory ++ [cmd] }
  | .setCwd path => { state with currentCwd := path, cwds := state.cwds ++ [path] }
  | .goBack =>
    if state.cwds.length ≤ 1 then state
    else
      let newCwds := state.cwds.dropLast
      { state with cwds := newCwds, currentCwd := newCwds.getLastD "" }
  | .replaceState newState => newState

/-! ### Help-wizard finite-state machine (`Shell.tsx`) -/

/-- The `helpWizardStep` React state (`'none' | 'start' | 'experience'`). -/
inductive WizStep where
  | none
  | start
  | experience
deriving DecidableEq, Repr

/-- The onboarding-detour state: the wizard step plus the
`helpWizardSeenRef` flag. -/
structure HelpState where
  step : WizStep
  seen : Bool
deriving DecidableEq, Repr

/-- The tolerant yes-parser of the wizard (`answer === 'y' || 'yes'` on
the trimmed, lowercased input). -/
def isYesAnswer (raw : String) : Bool :=
  strLower (strTrim raw) == "y" || strLower (strTrim raw) == "yes"

/-- The tolerant no-parser of the wizard. -/
def isNoAnswer (raw : String) : Bool :=
  strLower (strTrim raw) == "n" || strLower (strTrim raw) == "no"

/-- Convenience: append one entry through the reducer (`addError` /
`addOutput` each dispatch a single `ADD_HISTORY`). -/
def addItem (st : ShellState) (it : HistoryItem) : ShellState :=
  shellReducer st (.addHistory it)

/-- An error entry (fix-suggestion chips are display-only and omitted). -/
def errItem (msg : String) : HistoryItem := { type := EntryType.error, content := msg }

/-- An output entry with an abstracted content label. -/
def outItem (label : String) : HistoryItem := { type := EntryType.output, content := label }

/-- The wizard-answer handler at the top of `execute` (runs whenever
`helpWizardStep !== 'none'`): reprompts on non-yes/no answers; at the
`start` question, no declines without marking the wizard seen, while yes
marks it seen and advances; at the `experience` question either answer
prints tips and closes the wizard. -/
def execWizard (wiz : HelpState) (st2 : ShellState) (raw : String) : ShellState × HelpState :=
  let isYes := isYesAnswer raw
  let isNo := isNoAnswer raw
  if !isYes && !isNo then
    (addItem st2 (outItem "help-wizard-reprompt"), wiz)
  else if wiz.step = WizStep.start then
    if isNo then
      (addItem st2 (outItem "help-wizard-declined"), { wiz with step := WizStep.none })
    else
      (addItem st2 (outItem "help-wizard-experience-question"),
        { step := WizStep.experience, seen := true })
  else
    if isYes then (addItem st2 (outItem "help-wizard-tips-experienced"), { wiz with step := WizStep.none })
    else (addItem st2 (outItem "help-wizard-tips-basic"), { wiz with step := WizStep.none })

/-! ### Command dispatcher (`execute` in `Shell.tsx`) -/

/-- Decimal digit-string value, used to model `Number(value)`. -/
def decDigitsVal (cs : List Char) : Option Nat :=
  if cs ≠ [] ∧ cs.all Char.isDigit then
    some (cs.foldl (fun n c => n * 10 + (c.toNat - 48)) 0)
  else none

/-- Model of `parseDepthArg`: `Number(value)` followed by
`Math.max(0, Math.floor(·))`, on plain decimal literals (the forms the
`tree` grammar distinguishes); other strings count as non-numeric. -/
def parseDepthArg (value : Option String) : Option Nat :=
  match value with
  | none => none
  | some v =>
    if v = "" then none
    else
      match v.data with
      | '-' :: rest => (decDigitsVal rest).map (fun _ => 0)
      | cs => decDigitsVal cs

/-- The `home` command: jump to root through `SET_CWD` (pushes a history
entry on the working-directory stack). -/
def runHome (st2 : ShellState) : ShellState := shellReducer st2 (.setCwd "/")

/-- The `cd` command (`const target = args[0] || '/'`). -/
def runCd (root : FSNode) (st2 : ShellState) (args : List String) : ShellState :=
  let target := match args with | [] => "/" | t :: _ => if t = "" then "/" else t
  match resolvePath root st2.currentCwd target with
  | none => addItem st2 (errItem ("cd: no such file or directory: " ++ target))
  | some newPath =>
    match getNodeAtPath root newPath with
    | none => addItem st2 (errItem ("cd: no such file or directory: " ++ target))
    | some FSNode.file => addItem st2 (errItem ("cd: not a directory: " ++ target))
    | some (FSNode.dir _) => shellReducer st2 (.setCwd newPath)

/-- The `ls` command. -/
def runLs (root : FSNode) (st2 : ShellState) : ShellState :=
  match getNodeAtPath root st2.currentCwd with
  | some (FSNode.dir _) => addItem st2 (outItem "ls-listing")
  | _ => addItem st2 (errItem ("ls: not a directory: " ++ st2.currentCwd))

/-- The `pwd` command. -/
def runPwd (st2 : ShellState) : ShellState := addItem st2 (outItem st2.currentCwd)

/-- The `back` command: at the floor of the working-directory stack it
appends an error entry (`addError('Already at root of session.')`) and
otherwise dispatches `GO_BACK`. -/
def runBack (st2 : ShellState) : ShellState :=
  if st2.cwds.length ≤ 1 then addItem st2 (errItem "Already at root of session.")
  else shellReducer st2 .goBack

/-- The resolve-and-render tail of `runTree` after argument parsing. -/
def runTreeResolved (root : FSNode) (st2 : ShellState) (targetPathArg : Option String) :
    ShellState :=
  let resolved :=
    match targetPathArg with
    | some t => resolvePath root st2.currentCwd t
    | none => some st2.currentCwd
  match resolved with
  | none =>
    addItem st2 (errItem ("tree: no such file or directory: " ++ targetPathArg.getD ""))
  | some rp =>
    match getNodeAtPath root rp with
    | none =>
      addItem st2 (errItem ("tree: no such file or directory: " ++ targetPathArg.getD rp))
    | some _ => addItem st2 (outItem "tree-output")

/-- The `tree` command argument grammar: `-L`/`--depth` with a numeric
value (usage error when invalid), a single argument that is either a
depth or a path, or two arguments in either order. -/
def runTree (root : FSNode) (st2 : ShellState) (args : List String) : ShellState :=
  match args with
  | [] => runTreeResolved root st2 none
  | a0 :: rest =>
    if a0 = "-L" ∨ a0 = "--depth" then
      match parseDepthArg rest.head? with
      | none => addItem st2 (errItem "Usage: tree [-L depth] [path]")
      | some _ => runTreeResolved root st2 (rest.drop 1).head?
    else
      match rest with
      | [] =>
        match parseDepthArg (some a0) with
        | some _ => runTreeResolved root st2 none
        | none => runTreeResolved root st2 (some a0)
      | a1 :: _ =>
        match parseDepthArg (some a0) with
        | some _ => runTreeResolved root st2 (some a1)
        | none => runTreeResolved root st2 (some a0)

/-- The `open` command: a directory becomes the new cwd, a file is
printed (URL/highlight side effects are external collaborators). -/
def runOpen (root : FSNode) (st2 : ShellState) (args : List String) : ShellState :=
  match args with
  | [] => addItem st2 (errItem "Usage: open <path>")
  | t :: _ =>
    if t = "" then addItem st2 (errItem "Usage: open <path>")
    else
      match resolvePath root st2.currentCwd t with
      | none => addItem st2 (errItem ("open: " ++ t ++ ": No such file or directory"))
      | some path =>
        match getNodeAtPath root path with
        | none => addItem st2 (errItem ("open: " ++ t ++ ": No such file or directory"))
        | some (FSNode.dir _) => shellReducer st2 (.setCwd path)
        | some FSNode.file => addItem st2 (outItem "open-file-content")

/-- The `cat` command (`IsADirectory` error on a directory target). -/
def runCat (root : FSNode) (st2 : ShellState) (args : List String) : ShellState :=
  match args with
  | [] => addItem st2 (errItem "Usage: cat <filename>")
  | t :: _ =>
    if t = "" then addItem st2 (errItem "Usage: cat <filename>")
    else
      match resolvePath root st2.currentCwd t with
      | none => addItem st2 (errItem ("cat: " ++ t ++ ": No such file"))
      | some path =>
        match getNodeAtPath root path with
        | none => addItem st2 (errItem ("cat: " ++ t ++ ": No such file"))
        | some (FSNode.dir _) => addItem st2 (errItem ("cat: " ++ t ++ ": Is a directory"))
        | some FSNode.file => addItem st2 (outItem "cat-file-content")

/-- The `search` command (`args.join(' ').toLowerCase()`; an empty result
set is an output message, not an error). -/
def runSearch (st2 : ShellState) (args : List String) : ShellState :=
  let term := strLower (String.intercalate " " args)
  if term = "" then addItem st2 (errItem "Usage: search <term>")
  else addItem st2 (outItem "search-results")

/-- The `summary` command. -/
def runSummary (st2 : ShellState) : ShellState := addItem st2 (outItem "summary-text")

/-- The default branch: unknown command error (fix suggestions are
display-only and omitted from the entry model). -/
def runUnknown (st2 : ShellState) (commandName : String) : ShellState :=
  addItem st2 (errItem ("Command not found: " ++ commandName))

/-- Embedding of `execute` from `Shell.tsx`: the full per-line pipeline.
Whitespace-only input returns before any dispatch; otherwise the command
echo and the raw line are recorded, the line is tokenized, a parse error
is logged, the wizard handler intercepts while active, a missing
filesystem is an error, and finally the command table dispatches. The
result pairs the new session state with the new wizard state. -/
def execute (fs : Option FSNode) (s : ShellState × HelpState) (raw : String) :
    ShellState × HelpState :=
  let st := s.1
  let wiz := s.2
  if strTrim raw = "" then s
  else
    let st2 := shellReducer (shellReducer st (.addHistory { type := EntryType.command, content := raw }))
      (.addCommand raw)
    match parseCommand raw with
    | none => (st2, wiz)
    | some parsed =>
      match parsed.error with
      | some e => (addItem st2 (errItem e), wiz)
      | none =>
        if wiz.step ≠ WizStep.none then execWizard wiz st2 raw
        else
          match fs with
          | none => (addItem st2 (errItem "FileSystem not loaded."), wiz)
          | some root =>
            match parsed.commandName with
            | "help" =>
              if !wiz.seen && wiz.step == WizStep.none then
                (addItem st2 (outItem "help-wizard-intro"), { wiz with step := WizStep.start })
              else (addItem st2 (outItem "help-grid"), wiz)
            | "clear" => (shellReducer st2 .clearHistory, wiz)
            | "home" => (runHome st2, wiz)
            | "cd" => (runCd root st2 parsed.args, wiz)
            | "ls" => (runLs root st2, wiz)
            | "pwd" => (runPwd st2, wiz)
            | "back" => (runBack st2, wiz)
            | "tree" => (runTree root st2 parsed.args, wiz)
            | "open" => (runOpen root st2 parsed.args, wiz)
            | "cat" => (runCat root st2 parsed.args, wiz)
            | "search" => (runSearch st2 parsed.args, wiz)
            | "summary" => (runSummary st2, wiz)
            | cn => (runUnknown st2 cn, wiz)

/-- Folding `execute` over a list of submitted lines. -/
def runInputs (fs : Option FSNode) (s : ShellState × HelpState) (raws : List String) :
    ShellState × HelpState :=
  raws.foldl (execute fs) s

/-- Number of error-tagged entries in a display log. -/
def errCount (l : List HistoryItem) : Nat :=
  l.countP (fun it => it.type == EntryType.error)

/-- The wizard state before any `help` invocation. -/
def wiz0 : HelpState := { step := WizStep.none, seen := false }

/-- The initial session of a fresh page load (no deep-link props). -/
def initSession : ShellState × HelpState := (getInitialState none none, wiz0)

example :
    (execute (some demoRoot) initSession "back").1.history =
      [defaultBanner, { type := EntryType.command, content := "back" },
        errItem "Already at root of session."] := by decide
example : (execute (some demoRoot) initSession "cd a").1.currentCwd = "/a" := by decide
example : (execute (some demoRoot) initSession "cd a").1.cwds = ["/", "/a"] := by decide
example :
    (runInputs (some demoRoot) initSession ["cd a", "back"]).1.currentCwd = "/" := by decide
example :
    (runInputs (some demoRoot) initSession ["help", "no", "help"]).2.step = WizStep.start := by
  decide
example :
    (runInputs (some demoRoot) initSession ["help", "y", "ok?", "no", "help"]).2 =
      { step := WizStep.none, seen := true } := by decide
example : (execute (some demoRoot) initSession "clear").1.commandHistory = ["clear"] := by decide
example : (execute (some demoRoot) initSession "clear").1.history = [defaultBanner] := by decide

/-! ### C5: ranking the query `hlep` -/

/-- C5 counterexample: the edit distance between `hlep` and `help` is 2
(the transposition costs two unit edits), not 1 as the claim states; and
over a vocabulary that contains `hlep` itself alongside `help`, the
ranking puts `hlep` (an exact prefix match at distance 0) first, so
`help` is not ranked first for every vocabulary containing it. -/
theorem hlep_distance_and_vocab_counterexample :
    levenshteinDistance "hlep" "help" = 2 ∧
    rankCandidates "hlep" ["hlep", "help"] 4 = ["hlep", "help"] := by decide

/-- C5 (corrected). Against the shell's fixed command vocabulary, the
query `hlep` (length 4, threshold 2) ranks `help` first — indeed `help`
is the only eligible candidate — and the edit distance between `hlep`
and `help` is 2, exactly at the length-adaptive threshold. -/
theorem hlep_ranks_help_first :
    rankCandidates "hlep" commandNames 4 = ["help"] ∧
    levenshteinDistance "hlep" "help" = 2 ∧
    getMaxEditDistance (strLower (strTrim "hlep")).data.length = 2 := by decide

/-! ### C10: the working-directory stack invariant -/

/-- The session states reachable from an initial state through the five
transitions the session uses at run time (`REPLACE_STATE` is excluded:
it is never dispatched by `execute`). -/
inductive Reachable : ShellState → Prop where
  | init (cwd : Option String) (hist : Option (List HistoryItem)) :
      Reachable (getInitialState cwd hist)
  | addHistory {s : ShellState} (item : HistoryItem) :
      Reachable s → Reachable (shellReducer s (.addHistory item))
  | clearHistory {s : ShellState} :
      Reachable s → Reachable (shellReducer s .clearHistory)
  | addCommand {s : ShellState} (cmd : String) :
      Reachable s → Reachable (shellReducer s (.addCommand cmd))
  | setCwd {s : ShellState} (path : String) :
      Reachable s → Reachable (shellReducer s (.setCwd path))
  | goBack {s : ShellState} :
      Reachable s → Reachable (shellReducer s .goBack)

/-- The stack invariant: the working-directory stack is never empty and
its last element is the current working directory. -/
def StackInv (s : ShellState) : Prop :=
  s.cwds ≠ [] ∧ s.cwds.getLast? = some s.currentCwd

/-- The five run-time transitions (every `Action` except `REPLACE_STATE`). -/
def coreAction : Action → Prop
  | .replaceState _ => False
  | _ => True

theorem stackInv_preserved (s : ShellState) (a : Action) (hc : coreAction a)
    (h : StackInv s) : StackInv (shellReducer s a) := by
  obtain ⟨hne, hlast⟩ := h
  cases a with
  | addHistory item => exact ⟨hne, hlast⟩
  | clearHistory => exact ⟨hne, hlast⟩
  | addCommand cmd => exact ⟨hne, hlast⟩
  | setCwd path =>
    constructor
    · simp [shellReducer]
    · simp [shellReducer, List.getLast?_concat]
  | goBack =>
    by_cases hl : s.cwds.length ≤ 1
    · simpa [shellReducer, hl] using ⟨hne, hlast⟩
    · have hlen : 1 ≤ s.cwds.dropLast.length := by
        rw [List.length_dropLast]
        omega
      have hdne : s.cwds.dropLast ≠ [] := by
        intro hcon
        rw [hcon] at hlen
        simp at hlen
      obtain ⟨x, hx⟩ := List.getLast?_isSome.mpr hdne |> Option.isSome_iff_exists.mp
      constructor
      · simpa [shellReducer, hl] using hdne
      · simp only [shellReducer, if_neg hl]
        rw [List.getLastD_eq_getLast?, hx]
        simp [hx]
  | replaceState newState => exact absurd hc (by simp [coreAction])

/-- C10 (confirmed). Every session state reachable from an initial state
via the five defined transitions satisfies the stack invariant, and each
of those transitions preserves it. -/
theorem shell_stack_invariant :
    (∀ s, Reachable s → StackInv s) ∧
    (∀ s a, coreAction a → StackInv s → StackInv (shellReducer s a)) := by
  constructor
  · intro s h
    induction h with
    | init cwd hist =>
      constructor
      · simp [getInitialState]
      · simp [getInitialState]
    | addHistory item _ ih => exact stackInv_preserved _ _ trivial ih
    | clearHistory _ ih => exact stackInv_preserved _ _ trivial ih
    | addCommand cmd _ ih => exact stackInv_preserved _ _ trivial ih
    | setCwd path _ ih => exact stackInv_preserved _ _ trivial ih
    | goBack _ ih => exact stackInv_preserved _ _ trivial ih
  · exact fun s a hc h => stackInv_preserved s a hc h

/-- C10 witness: the invariant holds at the fresh initial state and is
preserved by a concrete `SET_CWD` transition from it. -/
theorem shell_stack_invariant_witness :
    StackInv (getInitialState none none) ∧
    StackInv (shellReducer (getInitialState none none) (.setCwd "/a")) :=
  ⟨shell_stack_invariant.1 _ (Reachable.init none none),
    shell_stack_invariant.2 _ _ trivial (shell_stack_invariant.1 _ (Reachable.init none none))⟩

/-! ### C1 and C7: `back` at the floor, `clear` -/

theorem parseCommand_some_trim {raw : String} {p : ParsedCommand}
    (h : parseCommand raw = some p) : strTrim raw ≠ "" := by
  intro he
  unfold parseCommand at h
  rw [if_pos he] at h
  exact Option.noConfusion h

/-- C1 (corrected). Executing `back` when the working-directory stack
holds only its floor entry is indeed a no-op on the stack and the
current working directory and never a failure of the session, but the
entry appended to the display log (beyond the command echo) is an
error-tagged entry — `addError('Already at root of session.')` — not a
notice/output entry. -/
theorem back_at_floor_appends_error_entry (root : FSNode) (s : ShellState × HelpState)
    (raw : String) (p : ParsedCommand)
    (hw : s.2.step = WizStep.none)
    (hp : parseCommand raw = some p)
    (he : p.error = none)
    (hc : p.commandName = "back")
    (hfloor : s.1.cwds.length ≤ 1) :
    execute (some root) s raw =
      ({ s.1 with
          history := s.1.history ++ [{ type := EntryType.command, content := raw },
            errItem "Already at root of session."],
          commandHistory := s.1.commandHistory ++ [raw] }, s.2) := by
  have ht := parseCommand_some_trim hp
  unfold execute
  rw [if_neg ht]
  dsimp only
  rw [hp]
  dsimp only
  rw [he]
  dsimp only
  rw [hw]
  simp only [ne_eq, not_true_eq_false, if_false]
  rw [hc]
  simp [runBack, hfloor, addItem, shellReducer, errItem]

/-- C1 counterexample: at the initial state, the entry that `back`
appends after the command echo has tag `error`, refuting the claim that
a notice (non-error) entry is appended. -/
theorem back_at_floor_entry_is_error :
    ((execute (some demoRoot) initSession "back").1.history.getLast?).map HistoryItem.type =
      some EntryType.error := by decide

/-- C1 witness: the corrected statement instantiated at the fresh
initial session. -/
theorem back_at_floor_appends_error_entry_witness :
    (getInitialState none none).cwds.length ≤ 1 ∧
    execute (some demoRoot) initSession "back" =
      ({ getInitialState none none with
          history := (getInitialState none none).history ++
            [{ type := EntryType.command, content := "back" },
              errItem "Already at root of session."],
          commandHistory := (getInitialState none none).commandHistory ++ ["back"] },
        initSession.2) :=
  ⟨by decide,
    back_at_floor_appends_error_entry demoRoot initSession "back"
      { raw := "back", commandName := "back", args := [], error := none }
      rfl (by decide) rfl rfl (by decide)⟩

/-- C7 (corrected). Executing `clear` resets the display log to exactly
the banner-tagged entries it previously contained (the just-echoed
command line is not banner-tagged and is dropped too), or to the single
default banner if none existed, and leaves the working-directory stack
and current working directory unchanged — but the command-string history
is not unchanged: like every executed line, `clear` itself is appended
to it. -/
theorem clear_resets_log_keeps_banners (root : FSNode) (s : ShellState × HelpState)
    (raw : String) (p : ParsedCommand)
    (hw : s.2.step = WizStep.none)
    (hp : parseCommand raw = some p)
    (he : p.error = none)
    (hc : p.commandName = "clear") :
    execute (some root) s raw =
      ({ s.1 with
          history :=
            (if (s.1.history.filter (fun it => it.type == EntryType.banner)).length > 0 then
              s.1.history.filter (fun it => it.type == EntryType.banner)
            else [defaultBanner]),
          commandHistory := s.1.commandHistory ++ [raw] }, s.2) := by
  have ht := parseCommand_some_trim hp
  unfold execute
  rw [if_neg ht]
  dsimp only
  rw [hp]
  dsimp only
  rw [he]
  dsimp only
  rw [hw]
  simp only [ne_eq, not_true_eq_false, if_false]
  rw [hc]
  simp [shellReducer, List.filter_append]

/-- C7 counterexample: executing `clear` in a fresh session changes the
command-string history (it appends the line `clear`), refuting the
claim's "command-string history unchanged" conjunct. -/
theorem clear_appends_to_command_history :
    (execute (some demoRoot) initSession "clear").1.commandHistory = ["clear"] ∧
    (getInitialState none none).commandHistory = [] := by decide

/-- C7 witness: the corrected statement instantiated at the fresh
initial session. -/
theorem clear_resets_log_keeps_banners_witness :
    parseCommand "clear" =
      some { raw := "clear", commandName := "clear", args := [], error := none } ∧
    execute (some demoRoot) initSession "clear" =
      ({ getInitialState none none with
          history :=
            (if ((getInitialState none none).history.filter
                (fun it => it.type == EntryType.banner)).length > 0 then
              (getInitialState none none).history.filter
                (fun it => it.type == EntryType.banner)
            else [defaultBanner]),
          commandHistory := (getInitialState none none).commandHistory ++ ["clear"] },
        initSession.2) :=
  ⟨by decide,
    clear_resets_log_keeps_banners demoRoot initSession "clear"
      { raw := "clear", commandName := "clear", args := [], error := none }
      rfl (by decide) rfl rfl⟩

/-! ### C8: the tokenizer fails only with UnclosedQuote -/

/-- The token bookkeeping of the parser loop does not influence its final
quote state, which coincides with the standalone quote/escape automaton. -/
theorem parseLoop_quote (cs : List Char) :
    ∀ tokens cur quote esc,
      (parseLoop cs tokens cur quote esc).2.2 = scanQuote cs quote esc := by
  induction cs with
  | nil => intro tokens cur quote esc; rfl
  | cons c cs ih =>
    intro tokens cur quote esc
    unfold parseLoop scanQuote
    cases esc with
    | true => simp only [if_true]; exact ih ..
    | false =>
      simp only [Bool.false_eq_true, if_false]
      by_cases hb : c = '\\'
      · simp only [hb, if_pos rfl]
        exact ih ..
      · simp only [if_neg hb]
        cases quote with
        | some qc =>
          by_cases hq : c = qc
          · simp only [if_pos hq]; exact ih ..
          · simp only [if_neg hq]; exact ih ..
        | none =>
          by_cases hqc : c = '"' ∨ c = squote
          · simp only [if_pos hqc]; exact ih ..
          · simp only [if_neg hqc]
            by_cases hsp : isSpaceChar c
            · simp only [hsp, if_true]
              by_cases hcur : cur ≠ []
              · simp only [if_pos hcur]; exact ih ..
              · simp only [if_neg hcur]; exact ih ..
            · simp only [hsp, Bool.false_eq_true, if_false]
              exact ih ..

/-- If trimming yields the empty string, every character was whitespace. -/
theorem strTrim_empty_all_space {s : String} (h : strTrim s = "") :
    ∀ c ∈ s.data, isSpaceChar c = true := by
  unfold strTrim at h
  have hrev : ((s.data.dropWhile isSpaceChar).reverse.dropWhile isSpaceChar).reverse = [] := by
    have := congrArg String.data h
    simpa using this
  have hnil : (s.data.dropWhile isSpaceChar).reverse.dropWhile isSpaceChar = [] := by
    simpa using congrArg List.reverse hrev
  have hallrev := List.dropWhile_eq_nil_iff.mp hnil
  have hallA : ∀ c ∈ s.data.dropWhile isSpaceChar, isSpaceChar c = true := by
    intro c hc
    exact hallrev c (List.mem_reverse.mpr hc)
  intro c hc
  rw [← List.takeWhile_append_dropWhile (p := isSpaceChar) (l := s.data)] at hc
  rcases List.mem_append.mp hc with hc | hc
  · exact List.mem_takeWhile_imp hc
  · exact hallA c hc

/-- Whitespace characters are not backslashes or quotes. -/
theorem space_not_special {c : Char} (h : isSpaceChar c = true) :
    c ≠ '\\' ∧ ¬(c = '"' ∨ c = squote) := by
  unfold isSpaceChar Char.isWhitespace at h
  simp only [Bool.or_eq_true, decide_eq_true_eq] at h
  rcases h with ((h | h) | h) | h <;> subst h <;> exact ⟨by decide, by decide⟩

/-- The quote automaton stays closed on all-whitespace input. -/
theorem scanQuote_spaces {cs : List Char} (h : ∀ c ∈ cs, isSpaceChar c = true) :
    scanQuote cs none false = none := by
  induction cs with
  | nil => rfl
  | cons c cs ih =>
    obtain ⟨hb, hq⟩ := space_not_special (h c (List.mem_cons_self c cs))
    unfold scanQuote
    simp only [Bool.false_eq_true, if_false, if_neg hb, if_neg hq]
    exact ih (fun x hx => h x (List.mem_cons_of_mem c hx))

/-- C8 (confirmed). The tokenizer's only failure is `UnclosedQuote`: a
parse produces an error exactly when the quote/escape automaton still
has an open single or double quote at the end of the input, and the
error is always the unclosed-quote message; whitespace-only (or empty)
input yields "no command" (the `none` result), which is not an error. -/
theorem tokenizer_fails_only_on_unclosed_quote (input : String) :
    errOf (parseCommand input) =
      (if (scanQuote input.data none false).isSome then some "Unclosed quote found."
       else none) ∧
    (strTrim input = "" → parseCommand input = none) := by
  constructor
  · by_cases h0 : strTrim input = ""
    · have hscan : scanQuote input.data none false = none :=
        scanQuote_spaces (strTrim_empty_all_space h0)
      unfold parseCommand
      rw [if_pos h0, hscan]
      rfl
    · unfold parseCommand
      rw [if_neg h0]
      have hq := parseLoop_quote input.data [] [] none false
      rcases hpl : parseLoop input.data [] [] none false with ⟨tokens0, cur, quote⟩
      rw [hpl] at hq
      dsimp only at hq ⊢
      rw [← hq]
      cases quote with
      | some qc => rfl
      | none =>
        simp only [Option.isSome_none, Bool.false_eq_true, if_false]
        cases hcur : (if cur ≠ [] then tokens0 ++ [String.mk cur] else tokens0) with
        | nil => simp [hcur, errOf]
        | cons t rest => simp [hcur, errOf]
  · intro h
    unfold parseCommand
    rw [if_pos h]

/-- C8 witness: whitespace-only input yields "no command" through the
theorem, and a concrete unclosed quote is the error case. -/
theorem tokenizer_fails_only_on_unclosed_quote_witness :
    strTrim " " = "" ∧ parseCommand " " = none ∧
    errOf (parseCommand "cat \"book") = some "Unclosed quote found." :=
  ⟨by decide, (tokenizer_fails_only_on_unclosed_quote " ").2 (by decide), by decide⟩

/-! ### C6: ordering of the fuzzy ranking -/

theorem lexLt_irrefl (l : List Char) : lexLt l l = false := by
  induction l with
  | nil => rfl
  | cons a as ih => simp [lexLt, lt_irrefl, ih]

theorem lexLt_cons_iff {x y : Char} {xs ys : List Char} :
    lexLt (x :: xs) (y :: ys) = true ↔ x < y ∨ (x = y ∧ lexLt xs ys = true) := by
  simp only [lexLt]
  rcases lt_trichotomy x y with h | h | h
  · simp [h]
  · subst h
    simp [lt_irrefl]
  · have h1 : ¬x < y := not_lt_of_gt h
    have h2 : x ≠ y := ne_of_gt h
    simp [h1, h, h2]

theorem lexLt_trans {a b c : List Char} (h1 : lexLt a b = true) (h2 : lexLt b c = true) :
    lexLt a c = true := by
  induction a generalizing b c with
  | nil =>
    cases b with
    | nil => simp [lexLt] at h1
    | cons y ys =>
      cases c with
      | nil => simp [lexLt] at h2
      | cons z zs => rfl
  | cons x xs ih =>
    cases b with
    | nil => simp [lexLt] at h1
    | cons y ys =>
      cases c with
      | nil => simp [lexLt] at h2
      | cons z zs =>
        rw [lexLt_cons_iff] at h1 h2 ⊢
        rcases h1 with h1 | ⟨he1, h1⟩
        · rcases h2 with h2 | ⟨he2, h2⟩
          · exact Or.inl (lt_trans h1 h2)
          · exact Or.inl (he2 ▸ h1)
        · rcases h2 with h2 | ⟨he2, h2⟩
          · exact Or.inl (he1 ▸ h2)
          · exact Or.inr ⟨he1.trans he2, ih h1 h2⟩

theorem lexLt_asymm {a b : List Char} (h : lexLt a b = true) : lexLt b a = false := by
  by_contra hc
  rw [Bool.not_eq_false] at hc
  have := lexLt_trans h hc
  rw [lexLt_irrefl] at this
  exact Bool.false_ne_true this

theorem lexLt_trichotomy (a b : List Char) : lexLt a b = true ∨ a = b ∨ lexLt b a = true := by
  induction a generalizing b with
  | nil =>
    cases b with
    | nil => exact Or.inr (Or.inl rfl)
    | cons y ys => exact Or.inl rfl
  | cons x xs ih =>
    cases b with
    | nil => exact Or.inr (Or.inr rfl)
    | cons y ys =>
      rcases lt_trichotomy x y with h | h | h
      · exact Or.inl (lexLt_cons_iff.mpr (Or.inl h))
      · subst h
        rcases ih ys with h | h | h
        · exact Or.inl (lexLt_cons_iff.mpr (Or.inr ⟨rfl, h⟩))
        · exact Or.inr (Or.inl (by rw [h]))
        · exact Or.inr (Or.inr (lexLt_cons_iff.mpr (Or.inr ⟨rfl, h⟩)))
      · exact Or.inr (Or.inr (lexLt_cons_iff.mpr (Or.inl h)))

theorem rowLe_total (a b : RankRow) : rowLe a b = true ∨ rowLe b a = true := by
  unfold rowLe
  simp only [Bool.or_eq_true, Bool.and_eq_true, decide_eq_true_eq, Bool.not_eq_true']
  rcases Nat.lt_trichotomy a.score b.score with h | h | h
  · exact Or.inl (Or.inl h)
  · rcases lexLt_trichotomy b.candidate.data a.candidate.data with hl | hl | hl
    · exact Or.inr (Or.inr ⟨h.symm, lexLt_asymm hl⟩)
    · exact Or.inl (Or.inr ⟨h, by rw [hl, lexLt_irrefl]⟩)
    · exact Or.inl (Or.inr ⟨h, lexLt_asymm hl⟩)
  · exact Or.inr (Or.inl h)

theorem rowLe_trans (a b c : RankRow) (h1 : rowLe a b = true) (h2 : rowLe b c = true) :
    rowLe a c = true := by
  unfold rowLe at h1 h2 ⊢
  simp only [Bool.or_eq_true, Bool.and_eq_true, decide_eq_true_eq, Bool.not_eq_true'] at h1 h2 ⊢
  rcases h1 with h1 | ⟨h1e, h1l⟩
  · rcases h2 with h2 | ⟨h2e, h2l⟩
    · exact Or.inl (lt_trans h1 h2)
    · exact Or.inl (h2e ▸ h1)
  · rcases h2 with h2 | ⟨h2e, h2l⟩
    · exact Or.inl (h1e ▸ h2)
    · refine Or.inr ⟨h1e.trans h2e, ?_⟩
      by_contra hca
      rw [Bool.not_eq_false] at hca
      rcases lexLt_trichotomy a.candidate.data b.candidate.data with h | h | h
      · have hcb := lexLt_trans hca h
        rw [h2l] at hcb
        exact Bool.false_ne_true hcb
      · rw [h] at hca
        rw [h2l] at hca
        exact Bool.false_ne_true hca
      · rw [h1l] at h
        exact Bool.false_ne_true h

theorem mem_insertRow {z x : RankRow} : ∀ {l}, z ∈ insertRow x l → z = x ∨ z ∈ l := by
  intro l
  induction l with
  | nil =>
    intro h
    simp [insertRow] at h
    exact Or.inl h
  | cons y ys ih =>
    intro h
    unfold insertRow at h
    split at h
    · rcases List.mem_cons.mp h with h | h
      · exact Or.inr (h ▸ List.mem_cons_self y ys)
      · rcases ih h with h | h
        · exact Or.inl h
        · exact Or.inr (List.mem_cons_of_mem y h)
    · rcases List.mem_cons.mp h with h | h
      · exact Or.inl h
      · exact Or.inr h

theorem pairwise_insertRow {x : RankRow} :
    ∀ {l}, l.Pairwise (fun a b => rowLe a b = true) →
      (insertRow x l).Pairwise (fun a b => rowLe a b = true) := by
  intro l
  induction l with
  | nil =>
    intro _
    simp [insertRow]
  | cons y ys ih =>
    intro hp
    rw [List.pairwise_cons] at hp
    obtain ⟨hy, hys⟩ := hp
    unfold insertRow
    split
    · next hyx =>
      rw [List.pairwise_cons]
      refine ⟨?_, ih hys⟩
      intro z hz
      rcases mem_insertRow hz with rfl | hz
      · exact hyx
      · exact hy z hz
    · next hyx =>
      have hxy : rowLe x y = true := by
        rcases rowLe_total x y with h | h
        · exact h
        · exact absurd h hyx
      rw [List.pairwise_cons]
      constructor
      · intro z hz
        rcases List.mem_cons.mp hz with rfl | hz
        · exact hxy
        · exact rowLe_trans _ _ _ hxy (hy z hz)
      · exact List.pairwise_cons.mpr ⟨hy, hys⟩

theorem sortRows_pairwise (l : List RankRow) :
    (sortRows l).Pairwise (fun a b => rowLe a b = true) := by
  induction l with
  | nil => simp [sortRows]
  | cons x xs ih => exact pairwise_insertRow ih

theorem mem_sortRows {z : RankRow} : ∀ {l}, z ∈ sortRows l → z ∈ l := by
  intro l
  induction l with
  | nil => intro h; simp [sortRows] at h
  | cons x xs ih =>
    intro h
    unfold sortRows at h
    rcases mem_insertRow h with h | h
    · exact h ▸ List.mem_cons_self x xs
    · exact List.mem_cons_of_mem x (ih h)

/-- The ranking order the sorted output obeys, expressed on candidate
names: strictly smaller score (`group * 100 + distance`) first, ties
broken by the lexicographic name comparison. -/
def rankKeyLe (nq : String) (a b : String) : Prop :=
  (mkRow nq a).score < (mkRow nq b).score ∨
    ((mkRow nq a).score = (mkRow nq b).score ∧ lexLt b.data a.data = false)

/-- C6 (corrected). For every query with a nonempty normalized form, the
ranking orders its output by the integer score `group * 100 + distance`
(ties broken by lexicographic candidate comparison) and truncates to the
caller limit. This coincides with the claimed lexicographic `(group,
distance)` key only while distances stay below the group weight 100; a
whitespace-only query bypasses ranking entirely and returns the first
`limit` candidates unranked. -/
theorem rank_orders_by_score (q : String) (cs : List String) (lim : Nat)
    (hq : (strLower (strTrim q)).data.length ≠ 0) :
    (rankCandidates q cs lim).length ≤ lim ∧
    (rankCandidates q cs lim).Pairwise (rankKeyLe (strLower (strTrim q))) := by
  unfold rankCandidates
  dsimp only
  rw [if_neg hq]
  constructor
  · rw [List.length_map, List.length_take]
    exact min_le_left _ _
  · rw [List.pairwise_map]
    have hsorted := sortRows_pairwise
      ((cs.map (mkRow (strLower (strTrim q)))).filter
        (fun row => row.startsWith || row.includes ||
          decide (row.distance ≤ getMaxEditDistance (strLower (strTrim q)).data.length)))
    have htake := List.Pairwise.sublist (List.take_sublist lim _) hsorted
    refine List.Pairwise.imp_of_mem ?_ htake
    intro a b ha hb hab
    have hamem : a ∈ cs.map (mkRow (strLower (strTrim q))) :=
      List.mem_of_mem_filter (mem_sortRows (List.mem_of_mem_take ha))
    have hbmem : b ∈ cs.map (mkRow (strLower (strTrim q))) :=
      List.mem_of_mem_filter (mem_sortRows (List.mem_of_mem_take hb))
    obtain ⟨ca, _, hae⟩ := List.mem_map.mp hamem
    obtain ⟨cb, _, hbe⟩ := List.mem_map.mp hbmem
    subst hae
    subst hbe
    unfold rankKeyLe
    unfold rowLe at hab
    simpa using hab

/-- A long candidate that is a prefix match for `ab` but at distance 103:
its score `0 * 100 + 103` exceeds the score `1 * 100 + 1` of the
substring match `xab`. -/
def bigX : String := String.mk ('a' :: 'b' :: List.replicate 103 'x')

set_option maxRecDepth 16384 in
/-- C6 counterexample: the eligible candidate `bigX` has the strictly
smaller `(group, distance)` key `(0, 103)` yet is ranked after `xab`,
whose key is `(1, 1)`, because the code compares the collapsed score
`group * 100 + distance` and `103 > 101`. -/
theorem rank_group_inversion :
    rankCandidates "ab" [bigX, "xab"] 10 = ["xab", bigX] ∧
    groupOf "ab" bigX = 0 ∧ groupOf "ab" "xab" = 1 ∧
    (mkRow "ab" bigX).distance = 103 ∧ (mkRow "ab" "xab").distance = 1 := by decide

/-- C6 witness: the corrected ordering statement at a concrete query and
vocabulary. -/
theorem rank_orders_by_score_witness :
    (strLower (strTrim "hlep")).data.length ≠ 0 ∧
    ((rankCandidates "hlep" ["help", "cd"] 4).length ≤ 4 ∧
      (rankCandidates "hlep" ["help", "cd"] 4).Pairwise (rankKeyLe (strLower (strTrim "hlep")))) :=
  ⟨by decide, rank_orders_by_score "hlep" ["help", "cd"] 4 (by decide)⟩

/-! ### C4: the onboarding detour -/

theorem yes_not_no {raw : String} (h : isYesAnswer raw = true) : isNoAnswer raw = false := by
  have h' : strLower (strTrim raw) = "y" ∨ strLower (strTrim raw) = "yes" := by
    simpa [isYesAnswer] using h
  rcases h' with he | he <;> simp [isNoAnswer, he]

/-- Once the wizard is closed and marked seen, no input reopens it. -/
theorem execute_preserves_done_wizard (fs : Option FSNode) (s : ShellState × HelpState)
    (raw : String) (h : s.2 = { step := WizStep.none, seen := true }) :
    (execute fs s raw).2 = { step := WizStep.none, seen := true } := by
  unfold execute
  by_cases h0 : strTrim raw = ""
  · simp [h0, h]
  · rw [if_neg h0]
    dsimp only
    cases hp : parseCommand raw with
    | none => simpa using h
    | some parsed =>
      dsimp only
      cases he : parsed.error with
      | some e => simpa using h
      | none =>
        dsimp only
        rw [h]
        simp only [ne_eq, not_true_eq_false, if_false, reduceCtorEq]
        cases fs with
        | none => simp
        | some root =>
          dsimp only
          split <;> simp

/-- Folding inputs preserves the closed-and-seen wizard state. -/
theorem runInputs_preserves_done_wizard (fs : Option FSNode) (raws : List String) :
    ∀ s : ShellState × HelpState, s.2 = { step := WizStep.none, seen := true } →
      (runInputs fs s raws).2 = { step := WizStep.none, seen := true } := by
  induction raws with
  | nil => intro s h; exact h
  | cons r rs ih =>
    intro s h
    exact ih (execute fs s r) (execute_preserves_done_wizard fs s r h)

/-- C4 (corrected). The detour runs at most once per session only after
it has been engaged: answering yes at the first question marks the
wizard seen and advances it; answering either way at the second question
closes it with the seen flag kept; and once closed-and-seen no sequence
of inputs reopens it — every later `help` dispatches the normal grid.
Declining at the first question, however, does not mark the wizard seen,
so a later `help` re-enters the detour. -/
theorem help_wizard_engaged_runs_once :
    (∀ (fs : Option FSNode) (s : ShellState × HelpState) (raw : String) (p : ParsedCommand),
        s.2.step = WizStep.start →
        parseCommand raw = some p → p.error = none →
        isYesAnswer raw = true →
        (execute fs s raw).2 = { step := WizStep.experience, seen := true }) ∧
    (∀ (fs : Option FSNode) (s : ShellState × HelpState) (raw : String) (p : ParsedCommand),
        s.2.step = WizStep.experience → s.2.seen = true →
        parseCommand raw = some p → p.error = none →
        (isYesAnswer raw = true ∨ isNoAnswer raw = true) →
        (execute fs s raw).2 = { step := WizStep.none, seen := true }) ∧
    (∀ (fs : Option FSNode) (s : ShellState × HelpState) (raws : List String),
        s.2 = { step := WizStep.none, seen := true } →
        (runInputs fs s raws).2 = { step := WizStep.none, seen := true }) ∧
    (∀ (root : FSNode) (s : ShellState × HelpState) (raw : String) (p : ParsedCommand),
        s.2 = { step := WizStep.none, seen := true } →
        parseCommand raw = some p → p.error = none → p.commandName = "help" →
        execute (some root) s raw =
          (addItem (shellReducer (shellReducer s.1
              (.addHistory { type := EntryType.command, content := raw }))
            (.addCommand raw)) (outItem "help-grid"), s.2)) := by
  refine ⟨?_, ?_, ?_, ?_⟩
  · intro fs s raw p hstep hp he hyes
    have ht := parseCommand_some_trim hp
    unfold execute
    rw [if_neg ht]
    dsimp only
    rw [hp]
    dsimp only
    rw [he]
    dsimp only
    rw [hstep]
    simp only [ne_eq, reduceCtorEq, not_false_eq_true, if_true]
    unfold execWizard
    rw [hyes, yes_not_no hyes, hstep]
    simp
  · intro fs s raw p hstep hseen hp he hyn
    have ht := parseCommand_some_trim hp
    unfold execute
    rw [if_neg ht]
    dsimp only
    rw [hp]
    dsimp only
    rw [he]
    dsimp only
    rw [hstep]
    simp only [ne_eq, reduceCtorEq, not_false_eq_true, if_true]
    unfold execWizard
    rw [hstep]
    rcases hyn with hy | hn
    · rw [hy, yes_not_no hy]
      simp [hseen]
    · by_cases hy : isYesAnswer raw = true
      · rw [hy, yes_not_no hy]
        simp [hseen]
      · rw [Bool.not_eq_true] at hy
        rw [hy, hn]
        simp [hseen]
  · intro fs s raws h
    exact runInputs_preserves_done_wizard fs raws s h
  · intro root s raw p hdone hp he hc
    have ht := parseCommand_some_trim hp
    unfold execute
    rw [if_neg ht]
    dsimp only
    rw [hp]
    dsimp only
    rw [he]
    dsimp only
    rw [hdone]
    simp only [ne_eq, not_true_eq_false, if_false, reduceCtorEq]
    rw [hc]
    simp

/-- C4 counterexample: declining the wizard (answering no at the first
question) leaves it unseen, and the very next `help` re-enters the
detour — refuting "after completed or declined it never re-enters". -/
theorem help_wizard_reenters_after_decline :
    (runInputs (some demoRoot) initSession ["help", "no"]).2 =
      { step := WizStep.none, seen := false } ∧
    (runInputs (some demoRoot) initSession ["help", "no", "help"]).2.step =
      WizStep.start := by decide

/-- C4 witness: the four corrected conjuncts at concrete sessions. -/
theorem help_wizard_engaged_runs_once_witness :
    (execute (some demoRoot)
        (getInitialState none none, { step := WizStep.start, seen := false }) "yes").2 =
      { step := WizStep.experience, seen := true } ∧
    (execute (some demoRoot)
        (getInitialState none none, { step := WizStep.experience, seen := true }) "no").2 =
      { step := WizStep.none, seen := true } ∧
    (runInputs (some demoRoot)
        (getInitialState none none, { step := WizStep.none, seen := true }) ["help", "ls"]).2 =
      { step := WizStep.none, seen := true } ∧
    execute (some demoRoot)
        (getInitialState none none, { step := WizStep.none, seen := true }) "help" =
      (addItem (shellReducer (shellReducer (getInitialState none none)
          (.addHistory { type := EntryType.command, content := "help" }))
        (.addCommand "help")) (outItem "help-grid"),
        { step := WizStep.none, seen := true }) :=
  ⟨help_wizard_engaged_runs_once.1 (some demoRoot) _ "yes"
      { raw := "yes", commandName := "yes", args := [], error := none }
      rfl (by decide) rfl (by decide),
    help_wizard_engaged_runs_once.2.1 (some demoRoot) _ "no"
      { raw := "no", commandName := "no", args := [], error := none }
      rfl rfl (by decide) rfl (Or.inr (by decide)),
    help_wizard_engaged_runs_once.2.2.1 (some demoRoot) _ ["help", "ls"] rfl,
    help_wizard_engaged_runs_once.2.2.2 demoRoot _ "help"
      { raw := "help", commandName := "help", args := [], error := none }
      rfl (by decide) rfl rfl⟩

/-! ### C9: errors are local -/

/-- Relation between the echoed state and a dispatch result: either
exactly one error entry was appended and the working-directory data is
untouched, or the error count did not grow. -/
def errsLocal (st2 st' : ShellState) : Prop :=
  (errCount st'.history = errCount st2.history + 1 ∧ st'.cwds = st2.cwds ∧
    st'.currentCwd = st2.currentCwd) ∨
  errCount st'.history ≤ errCount st2.history

theorem errsLocal_addErr (st2 : ShellState) (msg : String) :
    errsLocal st2 (addItem st2 (errItem msg)) := by
  left
  refine ⟨?_, rfl, rfl⟩
  simp [addItem, shellReducer, errCount, List.countP_append, List.countP_cons, errItem]

theorem errsLocal_addOut (st2 : ShellState) (label : String) :
    errsLocal st2 (addItem st2 (outItem label)) := by
  right
  simp [addItem, shellReducer, errCount, List.countP_append, List.countP_cons, outItem]

theorem errsLocal_setCwd (st2 : ShellState) (path : String) :
    errsLocal st2 (shellReducer st2 (.setCwd path)) := by
  right
  simp only [shellReducer]
  exact le_refl _

theorem errsLocal_goBack (st2 : ShellState) :
    errsLocal st2 (shellReducer st2 .goBack) := by
  right
  simp only [shellReducer]
  split <;> exact le_refl _

theorem errsLocal_clear (st2 : ShellState) :
    errsLocal st2 (shellReducer st2 .clearHistory) := by
  right
  simp only [shellReducer]
  split
  · have hz : errCount (st2.history.filter (fun it => it.type == EntryType.banner)) = 0 := by
      rw [errCount, List.countP_eq_zero]
      intro a ha
      have hb := List.of_mem_filter ha
      simp only [beq_iff_eq] at hb ⊢
      rw [hb]
      decide
    rw [hz]
    omega
  · have hz : errCount [defaultBanner] = 0 := by decide
    rw [hz]
    omega

theorem errsLocal_runCd (root : FSNode) (st2 : ShellState) (args : List String) :
    errsLocal st2 (runCd root st2 args) := by
  unfold runCd
  repeat' (first | split | dsimp only)
  all_goals first
    | exact errsLocal_addErr _ _
    | exact errsLocal_setCwd _ _

theorem errsLocal_runLs (root : FSNode) (st2 : ShellState) :
    errsLocal st2 (runLs root st2) := by
  unfold runLs
  repeat' (first | split | dsimp only)
  all_goals first
    | exact errsLocal_addErr _ _
    | exact errsLocal_addOut _ _

theorem errsLocal_runBack (st2 : ShellState) :
    errsLocal st2 (runBack st2) := by
  unfold runBack
  split
  · exact errsLocal_addErr _ _
  · exact errsLocal_goBack _

theorem errsLocal_runTreeResolved (root : FSNode) (st2 : ShellState)
    (targetPathArg : Option String) :
    errsLocal st2 (runTreeResolved root st2 targetPathArg) := by
  unfold runTreeResolved
  repeat' (first | split | dsimp only)
  all_goals first
    | exact errsLocal_addErr _ _
    | exact errsLocal_addOut _ _

theorem errsLocal_runTree (root : FSNode) (st2 : ShellState) (args : List String) :
    errsLocal st2 (runTree root st2 args) := by
  unfold runTree
  repeat' (first | split | dsimp only)
  all_goals first
    | exact errsLocal_runTreeResolved _ _ _
    | exact errsLocal_addErr _ _

theorem errsLocal_runOpen (root : FSNode) (st2 : ShellState) (args : List String) :
    errsLocal st2 (runOpen root st2 args) := by
  unfold runOpen
  repeat' (first | split | dsimp only)
  all_goals first
    | exact errsLocal_addErr _ _
    | exact errsLocal_setCwd _ _
    | exact errsLocal_addOut _ _

theorem errsLocal_runCat (root : FSNode) (st2 : ShellState) (args : List String) :
    errsLocal st2 (runCat root st2 args) := by
  unfold runCat
  repeat' (first | split | dsimp only)
  all_goals first
    | exact errsLocal_addErr _ _
    | exact errsLocal_addOut _ _

theorem errsLocal_runSearch (st2 : ShellState) (args : List String) :
    errsLocal st2 (runSearch st2 args) := by
  unfold runSearch
  dsimp only
  split
  · exact errsLocal_addErr _ _
  · exact errsLocal_addOut _ _

theorem errsLocal_execWizard (wiz : HelpState) (st2 : ShellState) (raw : String) :
    errsLocal st2 (execWizard wiz st2 raw).1 := by
  unfold execWizard
  repeat' (first | split | dsimp only)
  all_goals exact errsLocal_addOut _ _

theorem errsLocal_combine {st st2 st' : ShellState}
    (h : errsLocal st2 st')
    (he : errCount st2.history = errCount st.history)
    (hc : st2.cwds = st.cwds) (hw : st2.currentCwd = st.currentCwd) :
    errCount st'.history ≤ errCount st.history + 1 ∧
    (errCount st.history < errCount st'.history →
      st'.cwds = st.cwds ∧ st'.currentCwd = st.currentCwd) := by
  rcases h with ⟨h1, h2, h3⟩ | h1
  · exact ⟨by omega, fun _ => ⟨h2.trans hc, h3.trans hw⟩⟩
  · exact ⟨by omega, fun hlt => absurd hlt (by omega)⟩

/-- C9 (corrected). Every command execution appends at most one error
entry, and an execution that does append an error entry leaves the
working-directory stack and the current working directory unchanged; no
error aborts the session (`execute` is total). The rest of the session
state is not entirely untouched, though: the command echo joins the
display log and the raw line joins the command-string history on every
non-blank execution, erroring or not. -/
theorem errors_append_one_error_entry (fs : Option FSNode) (s : ShellState × HelpState)
    (raw : String) :
    errCount (execute fs s raw).1.history ≤ errCount s.1.history + 1 ∧
    (errCount s.1.history < errCount (execute fs s raw).1.history →
      (execute fs s raw).1.cwds = s.1.cwds ∧
      (execute fs s raw).1.currentCwd = s.1.currentCwd) := by
  unfold execute
  by_cases h0 : strTrim raw = ""
  · rw [if_pos h0]
    exact ⟨by omega, fun h => absurd h (by omega)⟩
  · rw [if_neg h0]
    dsimp only
    have hf1 : errCount (shellReducer (shellReducer s.1
        (.addHistory { type := EntryType.command, content := raw }))
        (.addCommand raw)).history = errCount s.1.history := by
      simp [shellReducer, errCount, List.countP_append, List.countP_cons]
    cases hp : parseCommand raw with
    | none =>
      dsimp only
      exact errsLocal_combine (Or.inr (le_refl _)) hf1 rfl rfl
    | some parsed =>
      dsimp only
      cases he : parsed.error with
      | some e =>
        dsimp only
        exact errsLocal_combine (errsLocal_addErr _ e) hf1 rfl rfl
      | none =>
        dsimp only
        by_cases hwz : s.2.step ≠ WizStep.none
        · rw [if_pos hwz]
          exact errsLocal_combine (errsLocal_execWizard _ _ _) hf1 rfl rfl
        · rw [if_neg hwz]
          cases fs with
          | none =>
            dsimp only
            exact errsLocal_combine (errsLocal_addErr _ _) hf1 rfl rfl
          | some root =>
            dsimp only
            split
            · split
              · exact errsLocal_combine (errsLocal_addOut _ _) hf1 rfl rfl
              · exact errsLocal_combine (errsLocal_addOut _ _) hf1 rfl rfl
            · exact errsLocal_combine (errsLocal_clear _) hf1 rfl rfl
            · exact errsLocal_combine (errsLocal_setCwd _ _) hf1 rfl rfl
            · exact errsLocal_combine (errsLocal_runCd _ _ _) hf1 rfl rfl
            · exact errsLocal_combine (errsLocal_runLs _ _) hf1 rfl rfl
            · exact errsLocal_combine (errsLocal_addOut _ _) hf1 rfl rfl
            · exact errsLocal_combine (errsLocal_runBack _) hf1 rfl rfl
            · exact errsLocal_combine (errsLocal_runTree _ _ _) hf1 rfl rfl
            · exact errsLocal_combine (errsLocal_runOpen _ _ _) hf1 rfl rfl
            · exact errsLocal_combine (errsLocal_runCat _ _ _) hf1 rfl rfl
            · exact errsLocal_combine (errsLocal_runSearch _ _) hf1 rfl rfl
            · exact errsLocal_combine (errsLocal_addOut _ _) hf1 rfl rfl
            · exact errsLocal_combine (errsLocal_addErr _ _) hf1 rfl rfl

/-- C9 counterexample: the erroring unknown command `lls` appends exactly
one error entry but also extends the command-string history, so the
session state beyond the display log is not left entirely unchanged. -/
theorem error_execution_mutates_command_history :
    errCount (execute (some demoRoot) initSession "lls").1.history =
      errCount (getInitialState none none).history + 1 ∧
    (execute (some demoRoot) initSession "lls").1.commandHistory = ["lls"] ∧
    (getInitialState none none).commandHistory = [] := by decide

/-- C9 witness: the erroring execution `lls` leaves the stack and cwd
unchanged, via the main theorem. -/
theorem errors_append_one_error_entry_witness :
    errCount (getInitialState none none).history <
      errCount (execute (some demoRoot) initSession "lls").1.history ∧
    ((execute (some demoRoot) initSession "lls").1.cwds = (getInitialState none none).cwds ∧
      (execute (some demoRoot) initSession "lls").1.currentCwd =
        (getInitialState none none).currentCwd) :=
  ⟨by decide, (errors_append_one_error_entry (some demoRoot) initSession "lls").2 (by decide)⟩

/-! ### Lemmas about path splitting and joining -/

theorem charSplit_ne_nil (cs : List Char) : charSplit cs ≠ [] := by
  induction cs with
  | nil => simp [charSplit]
  | cons c cs ih =>
    by_cases h : c = '/'
    · simp [charSplit, h]
    · simp only [charSplit, h, if_false]
      cases hcs : charSplit cs with
      | nil => simp
      | cons t ts => simp

theorem charSplit_no_slash {cs : List Char} (h : '/' ∉ cs) : charSplit cs = [cs] := by
  induction cs with
  | nil => rfl
  | cons c cs ih =>
    have hc : c ≠ '/' := fun hc => h (hc ▸ List.mem_cons_self c cs)
    have hcs : '/' ∉ cs := fun hm => h (List.mem_cons_of_mem c hm)
    simp only [charSplit, hc, if_false]
    rw [ih hcs]

theorem charSplit_append_slash {l1 : List Char} (l2 : List Char) (h : '/' ∉ l1) :
    charSplit (l1 ++ '/' :: l2) = l1 :: charSplit l2 := by
  induction l1 with
  | nil => simp [charSplit]
  | cons c cs ih =>
    have hc : c ≠ '/' := fun hc => h (hc ▸ List.mem_cons_self c cs)
    have hcs : '/' ∉ cs := fun hm => h (List.mem_cons_of_mem c hm)
    rw [List.cons_append, charSplit.eq_def]
    simp only [hc, if_false, ih hcs]

theorem mem_charSplit_no_slash {cs piece : List Char} (h : piece ∈ charSplit cs) :
    '/' ∉ piece := by
  induction cs generalizing piece with
  | nil =>
    simp [charSplit] at h
    simp [h]
  | cons c cs ih =>
    by_cases hc : c = '/'
    · simp only [charSplit, hc, if_true] at h
      rcases List.mem_cons.mp h with h | h
      · simp [h]
      · exact ih h
    · simp only [charSplit, hc, if_false] at h
      cases hcs : charSplit cs with
      | nil => exact absurd hcs (charSplit_ne_nil cs)
      | cons t ts =>
        rw [hcs] at h
        rcases List.mem_cons.mp h with h | h
        · subst h
          intro hm
          rcases List.mem_cons.mp hm with hm | hm
          · exact hc hm.symm
          · exact ih (hcs ▸ List.mem_cons_self t ts) hm
        · exact ih (hcs ▸ List.mem_cons_of_mem t h)

/-- Every segment produced by `splitPath` is nonempty and slash-free. -/
theorem splitPath_seg_ok {s : String} {x : String} (h : x ∈ splitPath s) :
    x ≠ "" ∧ '/' ∉ x.data := by
  unfold splitPath at h
  have hmem := List.mem_of_mem_filter h
  have hkeep := List.of_mem_filter h
  rcases List.mem_map.mp hmem with ⟨piece, hpiece, hx⟩
  constructor
  · simpa using hkeep
  · subst hx
    exact mem_charSplit_no_slash hpiece

theorem splitPath_join {stack : List String} (h : ∀ x ∈ stack, x ≠ "" ∧ '/' ∉ x.data) :
    splitPath (joinSegs stack) = stack := by
  induction stack with
  | nil => rfl
  | cons x xs ih =>
    rcases h x (List.mem_cons_self x xs) with ⟨hne, hsl⟩
    cases xs with
    | nil =>
      show splitPath x = [x]
      unfold splitPath
      rw [charSplit_no_slash hsl]
      simp [hne]
    | cons y ys =>
      have hdata : (joinSegs (x :: y :: ys)).data = x.data ++ '/' :: (joinSegs (y :: ys)).data := by
        show (x ++ "/" ++ joinSegs (y :: ys)).data = _
        rw [String.data_append, String.data_append, List.append_assoc]
        rfl
      unfold splitPath
      rw [hdata, charSplit_append_slash _ hsl]
      simp only [List.map_cons, List.filter_cons]
      have : (String.mk x.data != "") = true := by
        simpa using hne
      rw [this]
      have ihr := ih (fun z hz => h z (List.mem_cons_of_mem x hz))
      unfold splitPath at ihr
      rw [ihr]
      simp

theorem splitPath_slash_append (t : String) : splitPath ("/" ++ t) = splitPath t := by
  unfold splitPath
  have hdata : ("/" ++ t).data = '/' :: t.data := by
    rw [String.data_append]
    rfl
  rw [hdata]
  show List.filter _ (List.map _ ([] :: charSplit t.data)) = _
  simp

/-! ### Lemmas about the segment fold and the tree walks -/

theorem foldl_segStep_plain {l : List String} (h : ∀ x ∈ l, x ≠ "." ∧ x ≠ "..") :
    ∀ acc, l.foldl segStep acc = acc ++ l := by
  induction l with
  | nil => simp
  | cons p ps ih =>
    intro acc
    rcases h p (List.mem_cons_self p ps) with ⟨h1, h2⟩
    have hstep : segStep acc p = acc ++ [p] := by
      simp [segStep, h1, h2]
    simp only [List.foldl_cons, hstep]
    rw [ih (fun z hz => h z (List.mem_cons_of_mem p hz)) (acc ++ [p])]
    simp

theorem foldl_segStep_dotdot (n : Nat) :
    ∀ acc : List String, (List.replicate n "..").foldl segStep acc =
      acc.take (acc.length - n) := by
  induction n with
  | zero => intro acc; simp
  | succ m ih =>
    intro acc
    have hstep : segStep acc ".." = acc.dropLast := by simp [segStep]
    simp only [List.replicate_succ, List.foldl_cons, hstep]
    rw [ih acc.dropLast, List.dropLast_eq_take, List.take_take]
    congr 1
    have : acc.length - 1 - m = acc.length - (m + 1) := by omega
    rw [List.length_take]
    omega

theorem mem_foldl_segStep {l : List String} :
    ∀ {acc x}, x ∈ l.foldl segStep acc → x ∈ acc ∨ x ∈ l := by
  induction l with
  | nil => intro acc x h; simp at h; exact Or.inl h
  | cons p ps ih =>
    intro acc x h
    simp only [List.foldl_cons] at h
    rcases ih h with h | h
    · unfold segStep at h
      split at h
      · exact Or.inl h
      · split at h
        · exact Or.inl (List.dropLast_sublist acc |>.mem h)
        · rcases List.mem_append.mp h with h | h
          · exact Or.inl h
          · simp at h
            exact Or.inr (h ▸ List.mem_cons_self p ps)
    · exact Or.inr (List.mem_cons_of_mem p h)

theorem walkPushed_eq_isSome (node : FSNode) (l : List String) :
    walkPushed node l = (nodeStack node l).isSome := by
  induction l generalizing node with
  | nil => rfl
  | cons p rest ih =>
    cases node with
    | file => rfl
    | dir children =>
      simp only [walkPushed, nodeStack]
      cases childLookup children p with
      | none => rfl
      | some child => exact ih child

theorem walkPushed_take {l : List String} :
    ∀ {node : FSNode} (k : Nat), walkPushed node l = true → walkPushed node (l.take k) = true := by
  induction l with
  | nil => intro node k _; rw [List.take_nil]; rfl
  | cons p rest ih =>
    intro node k h
    cases k with
    | zero => rfl
    | succ k =>
      simp only [List.take_succ_cons]
      cases node with
      | file => exact absurd h (by simp [walkPushed])
      | dir children =>
        simp only [walkPushed] at h ⊢
        cases hc : childLookup children p with
        | none => rw [hc] at h; exact absurd h (by simp)
        | some child =>
          rw [hc] at h
          exact ih k h

theorem getNodeAtPath_eq_nodeStack (root : FSNode) (p : String) :
    getNodeAtPath root p = nodeStack root (splitPath p) := by
  unfold getNodeAtPath
  split
  · next h =>
    rcases h with h | h
    · subst h
      have : splitPath "/" = [] := by decide
      rw [this]
      rfl
    · subst h
      have : splitPath "" = [] := by decide
      rw [this]
      rfl
  · rfl

/-- Folding preserves the segment well-formedness of its input parts. -/
theorem seg_ok_fold {parts : List String} (hp : ∀ x ∈ parts, x ≠ "" ∧ '/' ∉ x.data) :
    ∀ x ∈ foldSegments parts, x ≠ "" ∧ '/' ∉ x.data := by
  intro x hx
  unfold foldSegments at hx
  rcases mem_foldl_segStep hx with h | h
  · simp at h
  · exact hp x h

/-- C2 (corrected). The resolver walk checks every pushed segment,
including the final one: whenever `resolvePath` succeeds, the returned
canonical path already names an existing node (only the final node's
type — directory versus file — is left to Node Lookup). -/
theorem resolvePath_some_implies_node_exists (root : FSNode) (current target p : String)
    (h : resolvePath root current target = some p) :
    (getNodeAtPath root p).isSome = true := by
  unfold resolvePath at h
  split at h
  · have hp : "/" = p := by simpa using h
    subst hp
    simp [getNodeAtPath]
  · dsimp only at h
    split at h
    · split at h
      · next hw =>
        have hp : "/" ++ joinSegs (foldSegments (splitPath target)) = p := by
          simpa using h
        subst hp
        rw [getNodeAtPath_eq_nodeStack, splitPath_slash_append,
          splitPath_join (seg_ok_fold (fun x hx => splitPath_seg_ok hx)),
          ← walkPushed_eq_isSome]
        exact hw
      · simp at h
    · split at h
      · next hw =>
        have hp : "/" ++ joinSegs (foldSegments (splitPath current ++ splitPath target)) = p := by
          simpa using h
        subst hp
        have hok : ∀ x ∈ splitPath current ++ splitPath target, x ≠ "" ∧ '/' ∉ x.data := by
          intro x hx
          rcases List.mem_append.mp hx with hx | hx
          · exact splitPath_seg_ok hx
          · exact splitPath_seg_ok hx
        rw [getNodeAtPath_eq_nodeStack, splitPath_slash_append,
          splitPath_join (seg_ok_fold hok), ← walkPushed_eq_isSome]
        exact hw
      · simp at h

/-- C2 counterexample: with the root owning only the directory `a`, the
expression `missing` has no intermediate (non-final) segments at all, so
the claim predicts the resolver succeeds with `/missing`; the code
instead fails because the walk also requires the final segment to name a
child. -/
theorem resolvePath_rejects_missing_final_segment :
    resolvePath demoRoot "/" "missing" = none ∧
    foldSegments (splitPath "missing") = ["missing"] := by decide

/-- C2 witness: a successful resolution whose result names an existing
node. -/
theorem resolvePath_some_implies_node_exists_witness :
    resolvePath demoRoot "/" "a" = some "/a" ∧ (getNodeAtPath demoRoot "/a").isSome = true :=
  ⟨by decide, resolvePath_some_implies_node_exists demoRoot "/" "a" "/a" (by decide)⟩

/-! ### C3: `..` clamps at root -/

theorem joinSegs_replicate_data (n : Nat) :
    ∃ rest, (joinSegs (List.replicate (n + 1) "..")).data = '.' :: rest := by
  cases n with
  | zero => exact ⟨['.'], rfl⟩
  | succ m =>
    refine ⟨'.' :: '/' :: (joinSegs (List.replicate (m + 1) "..")).data, ?_⟩
    show (".." ++ "/" ++ joinSegs (List.replicate (m + 1) "..")).data = _
    rw [String.data_append, String.data_append]
    rfl

theorem replicate_dd_facts (n : Nat) (hn : 1 ≤ n) :
    joinSegs (List.replicate n "..") ≠ "/" ∧ joinSegs (List.replicate n "..") ≠ "~" ∧
    startsWithSlash (joinSegs (List.replicate n "..")) = false ∧
    splitPath (joinSegs (List.replicate n "..")) = List.replicate n ".." := by
  obtain ⟨m, rfl⟩ : ∃ m, n = m + 1 := ⟨n - 1, by omega⟩
  obtain ⟨rest, hdata⟩ := joinSegs_replicate_data m
  refine ⟨?_, ?_, ?_, ?_⟩
  · intro he
    rw [he] at hdata
    simp at hdata
  · intro he
    rw [he] at hdata
    simp at hdata
  · unfold startsWithSlash
    rw [hdata]
    simp
  · exact splitPath_join (by
      intro x hx
      rw [List.eq_of_mem_replicate hx]
      exact ⟨by decide, by decide⟩)

/-- C3 (confirmed). Against any existing current directory (a canonical
path: its segments are plain), a target made of `n ≥ 1` `..` segments
never fails to resolve — each `..` pops, popping past the floor is a
no-op — and once `n` reaches the depth of the current directory the
result clamps at the root `/`. -/
theorem dotdot_clamps_at_root (root : FSNode) (current : String) (n : Nat)
    (hplain : ∀ x ∈ splitPath current, x ≠ "." ∧ x ≠ "..")
    (hex : (getNodeAtPath root current).isSome = true)
    (hn : 1 ≤ n) :
    (resolvePath root current (joinSegs (List.replicate n ".."))).isSome = true ∧
    ((splitPath current).length ≤ n →
      resolvePath root current (joinSegs (List.replicate n "..")) = some "/") := by
  obtain ⟨hne1, hne2, hsw, hsplit⟩ := replicate_dd_facts n hn
  have hwalkcur : walkPushed root (splitPath current) = true := by
    rw [walkPushed_eq_isSome, ← getNodeAtPath_eq_nodeStack]
    exact hex
  have h1 : (splitPath current).foldl segStep [] = splitPath current := by
    rw [foldl_segStep_plain hplain []]
    simp
  have hfold : foldSegments (splitPath current ++ splitPath (joinSegs (List.replicate n ".."))) =
      (splitPath current).take ((splitPath current).length - n) := by
    rw [hsplit]
    unfold foldSegments
    rw [List.foldl_append, h1, foldl_segStep_dotdot n (splitPath current)]
  have hres : resolvePath root current (joinSegs (List.replicate n "..")) =
      some ("/" ++ joinSegs ((splitPath current).take ((splitPath current).length - n))) := by
    unfold resolvePath
    rw [if_neg (by simp [hne1, hne2])]
    dsimp only
    rw [hsw]
    simp only [Bool.false_eq_true, if_false]
    rw [hfold]
    have hw : walkPushed root ((splitPath current).take ((splitPath current).length - n)) = true :=
      walkPushed_take _ hwalkcur
    rw [hw]
    simp
  constructor
  · rw [hres]
    rfl
  · intro hlen
    rw [hres]
    have hz : (splitPath current).length - n = 0 := by omega
    rw [hz, List.take_zero]
    rfl

/-- C3 witness: in the demo tree, from the directory `a` (written `"a"`
as in the spec scenario), three `..` segments — more than the depth —
resolve to `/`; concretely `joinSegs` of three `..` is the string
`"../../.."`. -/
theorem dotdot_clamps_at_root_witness :
    (∀ x ∈ splitPath "a", x ≠ "." ∧ x ≠ "..") ∧
    (getNodeAtPath demoRoot "a").isSome = true ∧
    joinSegs (List.replicate 3 "..") = "../../.." ∧
    resolvePath demoRoot "a" (joinSegs (List.replicate 3 "..")) = some "/" :=
  ⟨by decide, by decide, by decide,
    (dotdot_clamps_at_root demoRoot "a" 3 (by decide) (by decide) (by decide)).2 (by decide)⟩

example : splitPath "/a/b/" = ["a", "b"] := by decide
example : splitPath "" = [] := by decide
example : resolvePath demoRoot "/" "a" = some "/a" := by decide
example : resolvePath demoRoot "/a" ".." = some "/" := by decide
example : resolvePath demoRoot "a" "../../.." = some "/" := by decide
example : resolvePath demoRoot "/" "missing" = none := by decide
example : getNodeAtPath demoRoot "/a/f" = some .file := rfl
example : parseCommand "  " = none := by decide
example : (parseCommand "Goto books").map ParsedCommand.commandName = some "cd" := by decide
example : errOf (parseCommand "cat \"unclosed") = some "Unclosed quote found." := by decide

end UdaySh
